import Mathlib

/-!
Shallow embedding of the bounded-cache subsystem (`CacheService`,
`ImageCacheService`, `TranslationService`) and the undo/redo history engine
(`useAppStore`) of the manga-translation tool, together with proofs of the
specification's claims about them.

The JavaScript `Map` is modelled as an association list in insertion order
(`Map` iteration order), with `Map.get` / `Map.set` / `Map.delete` /
`Map.has` as `mapGet` / `mapSet` / `mapErase` / `mapHas`.  Timestamps are
integers (`Date.now()` values); byte sizes are rationals, since the image
size estimator performs JavaScript float division by 4.  The
`while` loop inside `CacheService.set` is modelled with explicit fuel so
that non-termination of the source loop is observable as `none`.
-/

namespace JsMap

/-- `Map.get`: first binding of the key, if any. -/
def mapGet (k : String) : List (String × β) → Option β
  | [] => none
  | (k', v) :: rest => if k' = k then some v else mapGet k rest

/-- `Map.set`: replace the value in place if the key is bound, else append. -/
def mapSet (k : String) (v : β) : List (String × β) → List (String × β)
  | [] => [(k, v)]
  | (k', v') :: rest => if k' = k then (k, v) :: rest else (k', v') :: mapSet k v rest

/-- `Map.delete`: remove the (first) binding of the key. -/
def mapErase (k : String) : List (String × β) → List (String × β)
  | [] => []
  | (k', v) :: rest => if k' = k then rest else (k', v) :: mapErase k rest

/-- `Map.has`: is the key bound? -/
def mapHas (k : String) (l : List (String × β)) : Bool :=
  (mapGet k l).isSome

end JsMap

namespace CacheService

open JsMap

/-- `CacheEntry<T>` from the source: `{ data, timestamp, size, expires }`.
Byte sizes are rationals because the image-size estimator divides by 4
with JavaScript float division; timestamps are `Date.now()` integers. -/
structure CacheEntry (α : Type) where
  data : α
  timestamp : Int
  size : ℚ
  expires : Int
deriving Repr, DecidableEq

/-- The mutable state of one `CacheService` instance: the entry map, the
running byte counter `currentSize`, and the two options that the claims
exercise (`maxSize`, `defaultTTL`). -/
structure CacheState (α : Type) where
  cache : List (String × CacheEntry α)
  currentSize : ℚ
  maxSize : ℚ
  defaultTTL : Int
deriving Repr, DecidableEq

/-- A fresh cache (`new CacheService({maxSize, defaultTTL})`). -/
def initState (α : Type) (maxSize : ℚ) (defaultTTL : Int) : CacheState α :=
  ⟨[], 0, maxSize, defaultTTL⟩

/-- JavaScript `x || d` on an optional number: `undefined` and `0` are
falsy and select the default. -/
def orDefault [Zero β] [DecidableEq β] (x : Option β) (d : β) : β :=
  match x with
  | none => d
  | some v => if v = 0 then d else v

/-- `delete(key)`: remove the entry if present, subtract its `size` from
`currentSize`, report whether it existed. -/
def delete (key : String) (s : CacheState α) : Bool × CacheState α :=
  match mapGet key s.cache with
  | some e => (true, { s with cache := mapErase key s.cache, currentSize := s.currentSize - e.size })
  | none => (false, s)

/-- `clear()`: drop every entry and reset `currentSize`. -/
def clear (s : CacheState α) : CacheState α :=
  { s with cache := [], currentSize := 0 }

/-- `size()`: number of live entries. -/
def size (s : CacheState α) : Nat :=
  s.cache.length

/-- `sizeInBytes()`: the running byte counter. -/
def sizeInBytes (s : CacheState α) : ℚ :=
  s.currentSize

/-- The scan inside `evictLeastRecentlyUsed`: fold over the entries in map
order keeping the first key whose timestamp is strictly below the running
minimum (`oldestTimestamp` starts at `Infinity`, so the first entry always
replaces the empty accumulator). -/
def findOldestAux : List (String × CacheEntry α) → Option (String × Int) → Option (String × Int)
  | [], acc => acc
  | (k, e) :: rest, acc =>
    match acc with
    | none => findOldestAux rest (some (k, e.timestamp))
    | some (k0, t0) =>
      if e.timestamp < t0 then findOldestAux rest (some (k, e.timestamp))
      else findOldestAux rest (some (k0, t0))

/-- `evictLeastRecentlyUsed()`: find the oldest-touched key and delete it.
The source guards the delete with `if (oldestKey)`, a JavaScript truthiness
test, so a `null` result *and* the empty-string key both skip the delete. -/
def evictLeastRecentlyUsed (s : CacheState α) : CacheState α :=
  match findOldestAux s.cache none with
  | some (k, _) => if k = "" then s else (delete k s).2
  | none => s

/-- The `while (currentSize + entrySize > maxSize && cache.size > 0)` loop
of `set`, with fuel: `none` means the loop did not reach its exit condition
within `fuel` iterations. -/
def evictLoop (entrySize : ℚ) : Nat → CacheState α → Option (CacheState α)
  | fuel, s =>
    if s.currentSize + entrySize > s.maxSize ∧ s.cache.length > 0 then
      match fuel with
      | 0 => none
      | fuel' + 1 => evictLoop entrySize fuel' (evictLeastRecentlyUsed s)
    else some s

/-- `set(key, data, ttl?, size?)` at time `now`.  `est` stands for the
value `estimateSize(data)` would produce (an external serialization
estimate); it is consulted exactly when the caller's `size` is absent or
`0`, mirroring `size || this.estimateSize(data)`.  The eviction loop runs
with fuel equal to the entry count, which suffices whenever each iteration
actually evicts; `none` reports that the source loop would not terminate. -/
def set (key : String) (data : α) (ttl : Option Int) (sizeArg : Option ℚ)
    (est : ℚ) (now : Int) (s : CacheState α) : Option (CacheState α) :=
  let entrySize := orDefault sizeArg est
  let expires := now + orDefault ttl s.defaultTTL
  let s1 := if mapHas key s.cache then (delete key s).2 else s
  match evictLoop entrySize s1.cache.length s1 with
  | none => none
  | some s2 =>
    some { s2 with
      cache := mapSet key ⟨data, now, entrySize, expires⟩ s2.cache,
      currentSize := s2.currentSize + entrySize }

/-- `get(key)` at time `now`: absent on miss; lazy-expire strictly past
`expires`; otherwise refresh the entry's LRU timestamp to `now` and return
its data. -/
def get (key : String) (now : Int) (s : CacheState α) : Option α × CacheState α :=
  match mapGet key s.cache with
  | none => (none, s)
  | some e =>
    if now > e.expires then (none, (delete key s).2)
    else (some e.data, { s with cache := mapSet key { e with timestamp := now } s.cache })

/-- `has(key)` at time `now`: same lazy-expiry check as `get`, but no LRU
refresh and no data. -/
def has (key : String) (now : Int) (s : CacheState α) : Bool × CacheState α :=
  match mapGet key s.cache with
  | none => (false, s)
  | some e =>
    if now > e.expires then (false, (delete key s).2)
    else (true, s)

/-- Sum of the `size` fields of the live entries. -/
def liveSum (l : List (String × CacheEntry α)) : ℚ :=
  (l.map (fun p => p.2.size)).sum

/-- One cache operation, for stating properties over arbitrary call
sequences.  A `set` carries the externally supplied arguments, the
estimator's output and the call's `Date.now()`. -/
inductive CacheOp (α : Type) where
  | set (key : String) (data : α) (ttl : Option Int) (sizeArg : Option ℚ) (est : ℚ) (now : Int)
  | get (key : String) (now : Int)
  | has (key : String) (now : Int)
  | delete (key : String)
  | clear
deriving Repr

/-- Apply one operation, discarding return values; `none` when a `set`'s
eviction loop fails to terminate. -/
def applyOp : CacheOp α → CacheState α → Option (CacheState α)
  | .set key data ttl sizeArg est now, s => set key data ttl sizeArg est now s
  | .get key now, s => some (get key now s).2
  | .has key now, s => some (has key now s).2
  | .delete key, s => some (delete key s).2
  | .clear, s => some (clear s)

/-- Run a sequence of operations from a state. -/
def runOps : List (CacheOp α) → CacheState α → Option (CacheState α)
  | [], s => some s
  | op :: ops, s =>
    match applyOp op s with
    | none => none
    | some s' => runOps ops s'

end CacheService

namespace Store

/-- The slice of Zustand store state the history engine touches:
`project`, `history`, `historyIndex`, and `settings.maxHistorySteps`.
The action type and the project type are abstract (`EditAction` values
are opaque to the engine), so the engine is modelled generically. -/
structure AppState (α π : Type) where
  project : π
  history : List α
  historyIndex : Int
  maxHistorySteps : Int
deriving Repr, DecidableEq

/-- JavaScript `array.slice(0, e)` with a possibly negative `e`
(a negative end counts from the end of the array). -/
def sliceTo (e : Int) (l : List α) : List α :=
  if 0 ≤ e then l.take e.toNat else l.take ((l.length : Int) + e).toNat

/-- JavaScript `array[i]` with an integer index: `undefined` out of range. -/
def jsIndex (l : List α) (i : Int) : Option α :=
  if 0 ≤ i then l.get? i.toNat else none

/-- The initial store state: empty history, cursor `-1`. -/
def initApp (p : π) (maxHistorySteps : Int) : AppState α π :=
  ⟨p, [], -1, maxHistorySteps⟩

/-- `addToHistory(action)`: truncate at the cursor (`slice(0, historyIndex
+ 1)`), push the action, `shift()` off the oldest entry if the log now
exceeds `settings.maxHistorySteps`, and point the cursor at the tip. -/
def addToHistory (a : α) (s : AppState α π) : AppState α π :=
  let h1 := sliceTo (s.historyIndex + 1) s.history
  let h2 := h1 ++ [a]
  let h3 := if (h2.length : Int) > s.maxHistorySteps then h2.drop 1 else h2
  { s with history := h3, historyIndex := (h3.length : Int) - 1 }

/-- `undo()`: below 0 a no-op returning `null`; otherwise return the
action at the cursor and decrement the cursor. -/
def undo (s : AppState α π) : Option α × AppState α π :=
  if s.historyIndex < 0 then (none, s)
  else (jsIndex s.history s.historyIndex, { s with historyIndex := s.historyIndex - 1 })

/-- `redo()`: at or past the tip a no-op returning `null`; otherwise
return the action after the cursor and increment the cursor. -/
def redo (s : AppState α π) : Option α × AppState α π :=
  if s.historyIndex ≥ (s.history.length : Int) - 1 then (none, s)
  else (jsIndex s.history (s.historyIndex + 1), { s with historyIndex := s.historyIndex + 1 })

/-- `clearHistory()`: reset to the empty log with cursor `-1`. -/
def clearHistory (s : AppState α π) : AppState α π :=
  { s with history := [], historyIndex := -1 }

/-- `canUndo()`. -/
def canUndo (s : AppState α π) : Bool :=
  s.historyIndex ≥ 0

/-- `canRedo()`. -/
def canRedo (s : AppState α π) : Bool :=
  s.historyIndex < (s.history.length : Int) - 1

/-- `updateSettings(partial)` restricted to the one settings field the
engine reads: merge `maxHistorySteps` when the partial update carries it. -/
def updateSettings (m : Option Int) (s : AppState α π) : AppState α π :=
  match m with
  | some v => { s with maxHistorySteps := v }
  | none => s

/-- One history-engine operation. -/
inductive HOp (α : Type) where
  | add (a : α)
  | undo
  | redo
  | clearHistory
  | updateSettings (m : Option Int)
deriving Repr

/-- Apply one operation, discarding `undo`/`redo` return values. -/
def applyH : HOp α → AppState α π → AppState α π
  | .add a, s => addToHistory a s
  | .undo, s => (undo s).2
  | .redo, s => (redo s).2
  | .clearHistory, s => clearHistory s
  | .updateSettings m, s => updateSettings m s

/-- Run a sequence of history operations. -/
def runH : List (HOp α) → AppState α π → AppState α π
  | [], s => s
  | op :: ops, s => runH ops (applyH op s)

end Store

namespace TranslationService

open JsMap

/-- `TranslationResult` (the optional `detectedLanguage` field is never
set by `translate` and is omitted). -/
structure TranslationResult where
  translatedText : String
  provider : String
  confidence : ℚ
deriving Repr, DecidableEq

/-- The provider base scores of `calculateConfidence`, default `0.7`. -/
def providerScore (name : String) : ℚ :=
  if name = "Google Translate" then 95/100
  else if name = "DeepL" then 92/100
  else if name = "LibreTranslate" then 85/100
  else if name = "Offline Dictionary" then 99/100
  else 7/10

/-- `calculateConfidence(providerName, translatedText)`. -/
def calculateConfidence (providerName translatedText : String) : ℚ :=
  let baseScore := providerScore providerName
  let adjustment : ℚ :=
    (if translatedText.contains '[' then (-1)/10 else 0) +
    (if translatedText.length > 0 then 1/20 else 0)
  max 0 (min 1 (baseScore + adjustment))

/-- `cacheTimeout = 24 * 60 * 60 * 1000`. -/
def cacheTimeout : Int := 24 * 60 * 60 * 1000

/-- The two private maps of `TranslationService`. -/
structure TransState where
  cache : List (String × TranslationResult)
  cacheExpiry : List (String × Int)
deriving Repr, DecidableEq

/-- `isInCache(key)`: an absent or falsy (`0`) or passed expiry deletes
the key from both maps and reports a miss; otherwise reports `cache.has`. -/
def isInCache (key : String) (now : Int) (s : TransState) : Bool × TransState :=
  let stale : Bool :=
    match mapGet key s.cacheExpiry with
    | none => true
    | some expiry => expiry = 0 ∨ now > expiry
  if stale then
    (false, ⟨mapErase key s.cache, mapErase key s.cacheExpiry⟩)
  else
    (mapHas key s.cache, s)

/-- The provider loop of `translate`: each list element is one provider's
name paired with the outcome its external `translate` call would produce;
the first success wins, failures fall through. -/
def tryProviders : List (String × Except String String) → Option (String × String)
  | [] => none
  | (name, .ok tt) :: _ => some (name, tt)
  | (_, .error _) :: rest => tryProviders rest

/-- `translate(text, from, to)` at time `now`.  On a cache hit returns the
cached result (`this.cache.get(cacheKey)!`, modelled with a junk default
at the unreachable `undefined`).  On a miss, tries the providers in
order; the first success is cached under the derived key with expiry
`now + cacheTimeout` and returned; if all fail, throws
`All translation providers failed` and caches nothing. -/
def translate (text fromLang toLang : String)
    (providers : List (String × Except String String)) (now : Int)
    (s : TransState) : Except String TranslationResult × TransState :=
  let cacheKey := fromLang ++ "-" ++ toLang ++ "-" ++ text
  let hitPair := isInCache cacheKey now s
  if hitPair.1 then
    (.ok ((mapGet cacheKey hitPair.2.cache).getD ⟨"", "", 0⟩), hitPair.2)
  else
    match tryProviders providers with
    | some (name, tt) =>
      let result : TranslationResult := ⟨tt, name, calculateConfidence name tt⟩
      (.ok result,
        ⟨mapSet cacheKey result hitPair.2.cache,
         mapSet cacheKey (now + cacheTimeout) hitPair.2.cacheExpiry⟩)
    | none => (.error "All translation providers failed", hitPair.2)

end TranslationService

namespace ImageCacheService

/-- The `ImageCacheService` configuration: 200 MB, 2 h TTL. -/
def initImageCache : CacheService.CacheState String :=
  CacheService.initState String (200 * 1024 * 1024) (2 * 60 * 60 * 1000)

/-- `estimateImageSize(dataUrl)`: length of the base64 payload times
`3 / 4` (JavaScript float division), default `1024` when the payload
after the comma is missing or empty (falsy). -/
def estimateImageSize (dataUrl : String) : ℚ :=
  match (dataUrl.splitOn ",").get? 1 with
  | none => 1024
  | some b => if b = "" then 1024 else (b.length * 3) / 4

/-- `cacheImage(url, quality)` at time `now`.  `compress` is the outcome
the external `compressImage(url, quality)` call would produce, and `est`
stands for the base class's `estimateSize` of the compressed data (only
consulted if the explicit size were falsy).  The `try`/`catch` swallows a
compression failure and returns the original `url`; the overall `none`
propagates non-termination of the inner `set`'s eviction loop. -/
def cacheImage (url quality : String) (compress : Except String String)
    (est : ℚ) (now : Int) (s : CacheService.CacheState String) :
    Option (Except String String × CacheService.CacheState String) :=
  let cacheKey := url ++ "-" ++ quality
  match CacheService.get cacheKey now s with
  | (some cached, s1) => some (.ok cached, s1)
  | (none, s1) =>
    match compress with
    | .ok compressedDataUrl =>
      let sz := estimateImageSize compressedDataUrl
      match CacheService.set cacheKey compressedDataUrl none (some sz) est now s1 with
      | none => none
      | some s2 => some (.ok compressedDataUrl, s2)
    | .error _ => some (.ok url, s1)

end ImageCacheService

/-! ### Association-list lemmas for the `Map` model -/

namespace JsMap

theorem mapGet_eq_none_iff (k : String) (l : List (String × β)) :
    mapGet k l = none ↔ k ∉ l.map Prod.fst := by
  induction l with
  | nil => simp [mapGet]
  | cons p rest ih =>
    obtain ⟨k', v⟩ := p
    by_cases h : k' = k
    · subst h; simp [mapGet]
    · simp only [mapGet, if_neg h, List.map_cons, List.mem_cons]
      rw [ih]
      constructor
      · intro hn hmem
        rcases hmem with h1 | h1
        · exact h h1.symm
        · exact hn h1
      · intro hn h1
        exact hn (Or.inr h1)

theorem mapGet_mem {k : String} {l : List (String × β)} {v : β}
    (h : mapGet k l = some v) : (k, v) ∈ l := by
  induction l with
  | nil => simp [mapGet] at h
  | cons p rest ih =>
    obtain ⟨k', v'⟩ := p
    by_cases hk : k' = k
    · subst hk
      simp [mapGet] at h
      simp [h]
    · simp [mapGet, hk] at h
      exact List.mem_cons_of_mem _ (ih h)

theorem mapGet_mapSet_self (k : String) (v : β) (l : List (String × β)) :
    mapGet k (mapSet k v l) = some v := by
  induction l with
  | nil => simp [mapGet, mapSet]
  | cons p rest ih =>
    obtain ⟨k', v'⟩ := p
    by_cases h : k' = k
    · subst h; simp [mapGet, mapSet]
    · simp [mapGet, mapSet, h, ih]

theorem mapGet_mapSet_ne {k k' : String} (v : β) (l : List (String × β))
    (h : k' ≠ k) : mapGet k' (mapSet k v l) = mapGet k' l := by
  have hne : ¬ (k = k') := fun h' => h h'.symm
  induction l with
  | nil => simp [mapGet, mapSet, hne]
  | cons p rest ih =>
    obtain ⟨k0, v0⟩ := p
    by_cases h0 : k0 = k
    · rw [h0]
      simp [mapGet, mapSet, hne]
    · simp only [mapSet, if_neg h0]
      by_cases h1 : k0 = k'
      · rw [h1]; simp [mapGet]
      · simp [mapGet, h1, ih]

theorem mapErase_sublist (k : String) (l : List (String × β)) :
    (mapErase k l).Sublist l := by
  induction l with
  | nil => simp [mapErase]
  | cons p rest ih =>
    obtain ⟨k', v⟩ := p
    by_cases h : k' = k
    · simp only [mapErase, if_pos h]
      exact List.sublist_cons_self _ _
    · simp only [mapErase, if_neg h]
      exact List.Sublist.cons₂ _ ih

theorem mapGet_mapErase_ne {k k' : String} (l : List (String × β))
    (h : k' ≠ k) : mapGet k' (mapErase k l) = mapGet k' l := by
  have hne : ¬ (k = k') := fun h' => h h'.symm
  induction l with
  | nil => simp [mapErase]
  | cons p rest ih =>
    obtain ⟨k0, v0⟩ := p
    by_cases h0 : k0 = k
    · rw [h0]
      simp [mapErase, mapGet, hne]
    · by_cases h1 : k0 = k'
      · rw [h1]; simp [mapErase, mapGet, h1 ▸ h0]
      · simp [mapErase, mapGet, h0, h1, ih]

theorem mapGet_eq_none_of_not_mem {k : String} {l : List (String × β)}
    (h : k ∉ l.map Prod.fst) : mapGet k l = none :=
  (mapGet_eq_none_iff k l).2 h

theorem mapGet_mapErase_self {k : String} {l : List (String × β)}
    (h : (l.map Prod.fst).Nodup) : mapGet k (mapErase k l) = none := by
  induction l with
  | nil => simp [mapErase, mapGet]
  | cons p rest ih =>
    obtain ⟨k', v⟩ := p
    simp only [List.map_cons, List.nodup_cons] at h
    by_cases h0 : k' = k
    · subst h0
      simp only [mapErase, if_pos rfl]
      exact mapGet_eq_none_of_not_mem h.1
    · simp [mapErase, mapGet, h0, ih h.2]

theorem length_mapErase {k : String} {l : List (String × β)} {v : β}
    (h : mapGet k l = some v) : (mapErase k l).length + 1 = l.length := by
  induction l with
  | nil => simp [mapGet] at h
  | cons p rest ih =>
    obtain ⟨k', v'⟩ := p
    by_cases h0 : k' = k
    · subst h0; simp [mapErase]
    · simp only [mapGet, if_neg h0] at h
      simp [mapErase, h0, ih h]

theorem map_fst_mapSet_of_none {k : String} (v : β) {l : List (String × β)}
    (h : mapGet k l = none) :
    (mapSet k v l).map Prod.fst = l.map Prod.fst ++ [k] := by
  induction l with
  | nil => simp [mapSet]
  | cons p rest ih =>
    obtain ⟨k', v'⟩ := p
    by_cases h0 : k' = k
    · subst h0; simp [mapGet] at h
    · simp only [mapGet, if_neg h0] at h
      simp [mapSet, h0, ih h]

theorem nodup_mapSet_of_none {k : String} (v : β) {l : List (String × β)}
    (hn : (l.map Prod.fst).Nodup) (h : mapGet k l = none) :
    ((mapSet k v l).map Prod.fst).Nodup := by
  rw [map_fst_mapSet_of_none v h]
  refine List.Nodup.append hn (List.nodup_singleton k) ?_
  intro x hx hx'
  simp only [List.mem_singleton] at hx'
  rw [hx'] at hx
  exact ((mapGet_eq_none_iff k l).1 h) hx

theorem map_fst_mapSet_of_some {k : String} (v : β) {l : List (String × β)} {w : β}
    (h : mapGet k l = some w) :
    (mapSet k v l).map Prod.fst = l.map Prod.fst := by
  induction l with
  | nil => simp [mapGet] at h
  | cons p rest ih =>
    obtain ⟨k', v'⟩ := p
    by_cases h0 : k' = k
    · subst h0; simp [mapSet]
    · simp only [mapGet, if_neg h0] at h
      simp [mapSet, h0, ih h]

theorem nodup_mapErase {k : String} {l : List (String × β)}
    (hn : (l.map Prod.fst).Nodup) : ((mapErase k l).map Prod.fst).Nodup :=
  ((mapErase_sublist k l).map Prod.fst).nodup hn

end JsMap

/-! ### Size-accounting invariant of `CacheService` -/

namespace CacheService

open JsMap

/-- Well-formedness of a cache state: keys are unique (as in a real
`Map`) and the running byte counter matches the live entries. -/
def WF (s : CacheState α) : Prop :=
  (s.cache.map Prod.fst).Nodup ∧ s.currentSize = liveSum s.cache

theorem liveSum_mapErase {k : String} {l : List (String × CacheEntry α)}
    {e : CacheEntry α} (h : mapGet k l = some e) :
    liveSum (mapErase k l) = liveSum l - e.size := by
  induction l with
  | nil => simp [mapGet] at h
  | cons p rest ih =>
    obtain ⟨k', v⟩ := p
    by_cases h0 : k' = k
    · rw [h0]
      rw [h0] at h
      simp only [mapGet, eq_self_iff_true, if_true, Option.some.injEq] at h
      subst h
      simp only [mapErase, eq_self_iff_true, if_true]
      simp only [liveSum, List.map_cons, List.sum_cons]
      ring
    · simp only [mapGet, if_neg h0] at h
      simp only [mapErase, if_neg h0]
      simp only [liveSum, List.map_cons, List.sum_cons] at *
      rw [ih h]
      ring

theorem liveSum_mapSet_none {k : String} (v : CacheEntry α)
    {l : List (String × CacheEntry α)} (h : mapGet k l = none) :
    liveSum (mapSet k v l) = liveSum l + v.size := by
  induction l with
  | nil => simp [mapSet, liveSum]
  | cons p rest ih =>
    obtain ⟨k', v'⟩ := p
    by_cases h0 : k' = k
    · rw [h0] at h; simp [mapGet] at h
    · simp only [mapGet, if_neg h0] at h
      simp only [mapSet, if_neg h0]
      simp only [liveSum, List.map_cons, List.sum_cons] at *
      rw [ih h]
      ring

theorem liveSum_mapSet_same {k : String} {l : List (String × CacheEntry α)}
    {e : CacheEntry α} (h : mapGet k l = some e) (v : CacheEntry α)
    (hs : v.size = e.size) : liveSum (mapSet k v l) = liveSum l := by
  induction l with
  | nil => simp [mapGet] at h
  | cons p rest ih =>
    obtain ⟨k', v'⟩ := p
    by_cases h0 : k' = k
    · rw [h0]
      rw [h0] at h
      simp only [mapGet, eq_self_iff_true, if_true, Option.some.injEq] at h
      subst h
      simp only [mapSet, eq_self_iff_true, if_true]
      simp only [liveSum, List.map_cons, List.sum_cons]
      rw [hs]
    · simp only [mapGet, if_neg h0] at h
      simp only [mapSet, if_neg h0]
      simp only [liveSum, List.map_cons, List.sum_cons] at *
      rw [ih h]

theorem WF_delete {s : CacheState α} (h : WF s) (k : String) :
    WF (delete k s).2 := by
  obtain ⟨hn, hc⟩ := h
  unfold delete
  cases hm : mapGet k s.cache with
  | none => exact ⟨hn, hc⟩
  | some e =>
    refine ⟨nodup_mapErase hn, ?_⟩
    simp only
    rw [hc, liveSum_mapErase hm]

theorem delete_maxSize (k : String) (s : CacheState α) :
    ((delete k s).2).maxSize = s.maxSize := by
  unfold delete
  cases mapGet k s.cache <;> rfl

theorem delete_defaultTTL (k : String) (s : CacheState α) :
    ((delete k s).2).defaultTTL = s.defaultTTL := by
  unfold delete
  cases mapGet k s.cache <;> rfl

theorem WF_clear {s : CacheState α} : WF (clear s) := by
  exact ⟨List.nodup_nil, rfl⟩

theorem WF_get {s : CacheState α} (h : WF s) (k : String) (now : Int) :
    WF (get k now s).2 := by
  unfold get
  cases hm : mapGet k s.cache with
  | none => exact h
  | some e =>
    by_cases ht : now > e.expires
    · simpa [ht] using WF_delete h k
    · dsimp only
      rw [if_neg ht]
      refine ⟨?_, ?_⟩
      · simpa [map_fst_mapSet_of_some _ hm] using h.1
      · have hsame := liveSum_mapSet_same hm { e with timestamp := now } rfl
        simpa [hsame] using h.2

theorem WF_has {s : CacheState α} (h : WF s) (k : String) (now : Int) :
    WF (has k now s).2 := by
  unfold has
  cases hm : mapGet k s.cache with
  | none => exact h
  | some e =>
    by_cases ht : now > e.expires
    · simpa [ht] using WF_delete h k
    · simpa [ht] using h

theorem WF_evict {s : CacheState α} (h : WF s) :
    WF (evictLeastRecentlyUsed s) := by
  unfold evictLeastRecentlyUsed
  cases findOldestAux s.cache none with
  | none => exact h
  | some p =>
    obtain ⟨k, t⟩ := p
    by_cases hk : k = ""
    · simpa [hk] using h
    · simpa [hk] using WF_delete h k

theorem evict_maxSize (s : CacheState α) :
    (evictLeastRecentlyUsed s).maxSize = s.maxSize := by
  unfold evictLeastRecentlyUsed
  cases findOldestAux s.cache none with
  | none => rfl
  | some p =>
    obtain ⟨k, t⟩ := p
    by_cases hk : k = ""
    · simp [hk]
    · simp [hk, delete_maxSize]

theorem evict_defaultTTL (s : CacheState α) :
    (evictLeastRecentlyUsed s).defaultTTL = s.defaultTTL := by
  unfold evictLeastRecentlyUsed
  cases findOldestAux s.cache none with
  | none => rfl
  | some p =>
    obtain ⟨k, t⟩ := p
    by_cases hk : k = ""
    · simp [hk]
    · simp [hk, delete_defaultTTL]

theorem mapGet_none_mapErase {k k' : String} {l : List (String × CacheEntry α)}
    (h : mapGet k l = none) : mapGet k (mapErase k' l) = none := by
  apply mapGet_eq_none_of_not_mem
  intro hmem
  exact (mapGet_eq_none_iff k l).1 h
    (((mapErase_sublist k' l).map Prod.fst).mem hmem)

theorem delete_mapGet_none {k k' : String} {s : CacheState α}
    (h : mapGet k s.cache = none) : mapGet k ((delete k' s).2).cache = none := by
  unfold delete
  cases mapGet k' s.cache with
  | none => exact h
  | some e => exact mapGet_none_mapErase h

theorem evict_mapGet_none {k : String} {s : CacheState α}
    (h : mapGet k s.cache = none) :
    mapGet k (evictLeastRecentlyUsed s).cache = none := by
  unfold evictLeastRecentlyUsed
  cases findOldestAux s.cache none with
  | none => exact h
  | some p =>
    obtain ⟨k', t⟩ := p
    by_cases hk : k' = ""
    · simpa [hk] using h
    · simpa [hk] using delete_mapGet_none h

theorem evictLoop_spec {es : ℚ} {fuel : Nat} {s s' : CacheState α}
    (hev : evictLoop es fuel s = some s') (h : WF s) :
    WF s' ∧ s'.maxSize = s.maxSize ∧ s'.defaultTTL = s.defaultTTL ∧
      (s'.currentSize + es ≤ s'.maxSize ∨ s'.cache = []) := by
  induction fuel generalizing s with
  | zero =>
    unfold evictLoop at hev
    by_cases hg : s.currentSize + es > s.maxSize ∧ s.cache.length > 0
    · simp [hg] at hev
    · simp only [if_neg hg, Option.some.injEq] at hev
      subst hev
      push_neg at hg
      refine ⟨h, rfl, rfl, ?_⟩
      by_cases hlt : s.currentSize + es ≤ s.maxSize
      · exact Or.inl hlt
      · exact Or.inr (List.length_eq_zero.1 (Nat.le_zero.1 (hg (lt_of_not_le hlt))))
  | succ n ih =>
    unfold evictLoop at hev
    by_cases hg : s.currentSize + es > s.maxSize ∧ s.cache.length > 0
    · simp only [if_pos hg] at hev
      obtain ⟨hwf, hmax, httl, hrest⟩ := ih hev (WF_evict h)
      exact ⟨hwf, hmax.trans (evict_maxSize s), httl.trans (evict_defaultTTL s),
        hrest⟩
    · simp only [if_neg hg, Option.some.injEq] at hev
      subst hev
      push_neg at hg
      refine ⟨h, rfl, rfl, ?_⟩
      by_cases hlt : s.currentSize + es ≤ s.maxSize
      · exact Or.inl hlt
      · exact Or.inr (List.length_eq_zero.1 (Nat.le_zero.1 (hg (lt_of_not_le hlt))))

theorem evictLoop_mapGet_none {es : ℚ} {fuel : Nat} {s s' : CacheState α}
    {k : String} (hev : evictLoop es fuel s = some s')
    (h : mapGet k s.cache = none) : mapGet k s'.cache = none := by
  induction fuel generalizing s with
  | zero =>
    unfold evictLoop at hev
    by_cases hg : s.currentSize + es > s.maxSize ∧ s.cache.length > 0
    · simp [hg] at hev
    · simp only [if_neg hg, Option.some.injEq] at hev
      subst hev
      exact h
  | succ n ih =>
    unfold evictLoop at hev
    by_cases hg : s.currentSize + es > s.maxSize ∧ s.cache.length > 0
    · simp only [if_pos hg] at hev
      exact ih hev (evict_mapGet_none h)
    · simp only [if_neg hg, Option.some.injEq] at hev
      subst hev
      exact h

end CacheService

namespace CacheService

open JsMap

theorem set_spec {s s' : CacheState α} (h : WF s) {key : String} {data : α}
    {ttl : Option Int} {sizeArg : Option ℚ} {est : ℚ} {now : Int}
    (hs : set key data ttl sizeArg est now s = some s') :
    WF s' ∧ s'.maxSize = s.maxSize ∧
      (s'.currentSize ≤ s'.maxSize ∨
        ∃ e : CacheEntry α, s'.cache = [(key, e)] ∧ s'.maxSize < e.size) := by
  unfold set at hs
  dsimp only at hs
  have h1 : WF (if mapHas key s.cache then (delete key s).2 else s) := by
    by_cases hh : mapHas key s.cache
    · simpa [hh] using WF_delete h key
    · simpa [hh] using h
  have h1get : mapGet key (if mapHas key s.cache then (delete key s).2 else s).cache = none := by
    by_cases hh : mapHas key s.cache
    · simp only [if_pos hh]
      unfold delete
      cases hg : mapGet key s.cache with
      | none => simp [mapHas, hg] at hh
      | some e => exact mapGet_mapErase_self h.1
    · simp only [if_neg hh]
      unfold mapHas at hh
      cases hg : mapGet key s.cache with
      | none => rfl
      | some e => exact absurd (by simp [hg]) hh
  have h1max : (if mapHas key s.cache then (delete key s).2 else s).maxSize = s.maxSize := by
    by_cases hh : mapHas key s.cache <;> simp [hh, delete_maxSize]
  cases hev : evictLoop (orDefault sizeArg est)
      (if mapHas key s.cache then (delete key s).2 else s).cache.length
      (if mapHas key s.cache then (delete key s).2 else s) with
  | none => rw [hev] at hs; exact absurd hs (by simp)
  | some s2 =>
    rw [hev] at hs
    simp only [Option.some.injEq] at hs
    subst hs
    obtain ⟨hwf2, hmax2, _, hexit⟩ := evictLoop_spec hev h1
    have hget2 : mapGet key s2.cache = none := evictLoop_mapGet_none hev h1get
    refine ⟨⟨?_, ?_⟩, ?_, ?_⟩
    · exact nodup_mapSet_of_none _ hwf2.1 hget2
    · show s2.currentSize + orDefault sizeArg est = _
      rw [liveSum_mapSet_none _ hget2, hwf2.2]
    · exact hmax2.trans h1max
    · rcases hexit with hfit | hempty
      · exact Or.inl hfit
      · by_cases hbig : s2.currentSize + orDefault sizeArg est ≤ s2.maxSize
        · exact Or.inl hbig
        · refine Or.inr ⟨⟨data, now, orDefault sizeArg est,
            now + orDefault ttl s.defaultTTL⟩, ?_, ?_⟩
          · show mapSet key _ s2.cache = _
            rw [hempty]
            rfl
          · have hz : s2.currentSize = 0 := by
              rw [hwf2.2, hempty]
              rfl
            rw [hz] at hbig
            simpa using lt_of_not_le hbig

theorem get_maxSize (k : String) (now : Int) (s : CacheState α) :
    ((get k now s).2).maxSize = s.maxSize := by
  unfold get
  cases mapGet k s.cache with
  | none => rfl
  | some e =>
    dsimp only
    by_cases ht : now > e.expires
    · simp [ht, delete_maxSize]
    · simp [ht]

theorem has_maxSize (k : String) (now : Int) (s : CacheState α) :
    ((has k now s).2).maxSize = s.maxSize := by
  unfold has
  cases mapGet k s.cache with
  | none => rfl
  | some e =>
    dsimp only
    by_cases ht : now > e.expires
    · simp [ht, delete_maxSize]
    · simp [ht]

theorem WF_applyOp {op : CacheOp α} {s s' : CacheState α} (h : WF s)
    (hs : applyOp op s = some s') : WF s' := by
  cases op with
  | set key data ttl sizeArg est now => exact (set_spec h hs).1
  | get key now =>
    simp only [applyOp, Option.some.injEq] at hs
    subst hs
    exact WF_get h key now
  | has key now =>
    simp only [applyOp, Option.some.injEq] at hs
    subst hs
    exact WF_has h key now
  | delete key =>
    simp only [applyOp, Option.some.injEq] at hs
    subst hs
    exact WF_delete h key
  | clear =>
    simp only [applyOp, Option.some.injEq] at hs
    subst hs
    exact WF_clear

theorem WF_runOps {ops : List (CacheOp α)} {s s' : CacheState α} (h : WF s)
    (hr : runOps ops s = some s') : WF s' := by
  induction ops generalizing s with
  | nil =>
    simp only [runOps, Option.some.injEq] at hr
    subst hr
    exact h
  | cons op rest ih =>
    unfold runOps at hr
    cases ha : applyOp op s with
    | none => rw [ha] at hr; exact absurd hr (by simp)
    | some s1 =>
      rw [ha] at hr
      exact ih (WF_applyOp h ha) hr

theorem WF_initState (α : Type) (M : ℚ) (T : Int) : WF (initState α M T) :=
  ⟨List.nodup_nil, rfl⟩

end CacheService

/-- C1: for every sequence of cache operations (`set`, `get`, `has`,
`delete`, `clear`) from a fresh cache, after each completed `set` call the
`currentSize` counter equals the sum of the `size` fields of the live
entries, and `currentSize` does not exceed the configured `maxSize`,
except when a single entry whose size alone exceeds `maxSize` remains
after everything else was evicted. -/
theorem c1_size_invariant {α : Type} (ops : List (CacheService.CacheOp α))
    (M : ℚ) (T : Int) (key : String) (data : α) (ttl : Option Int)
    (sizeArg : Option ℚ) (est : ℚ) (now : Int) (s s' : CacheService.CacheState α)
    (hrun : CacheService.runOps ops (CacheService.initState α M T) = some s)
    (hset : CacheService.set key data ttl sizeArg est now s = some s') :
    s'.currentSize = CacheService.liveSum s'.cache ∧
      (s'.currentSize ≤ s'.maxSize ∨
        ∃ e : CacheService.CacheEntry α,
          s'.cache = [(key, e)] ∧ s'.maxSize < e.size) := by
  have hwf : CacheService.WF s :=
    CacheService.WF_runOps (CacheService.WF_initState α M T) hrun
  obtain ⟨hwf', _, hb⟩ := CacheService.set_spec hwf hset
  exact ⟨hwf'.2, hb⟩

/-- Witness for C1: a `get` then a completed `set` on a fresh 10-byte
cache, at a concrete final state. -/
theorem c1_size_invariant_witness :
    (⟨[("a", ⟨true, 0, 3, 5⟩)], 3, 10, 5⟩ : CacheService.CacheState Bool).currentSize
        = CacheService.liveSum
          (⟨[("a", ⟨true, 0, 3, 5⟩)], 3, 10, 5⟩ : CacheService.CacheState Bool).cache ∧
      ((⟨[("a", ⟨true, 0, 3, 5⟩)], 3, 10, 5⟩ : CacheService.CacheState Bool).currentSize
          ≤ (⟨[("a", ⟨true, 0, 3, 5⟩)], 3, 10, 5⟩ : CacheService.CacheState Bool).maxSize ∨
        ∃ e : CacheService.CacheEntry Bool,
          (⟨[("a", ⟨true, 0, 3, 5⟩)], 3, 10, 5⟩ : CacheService.CacheState Bool).cache
              = [("a", e)] ∧
            (⟨[("a", ⟨true, 0, 3, 5⟩)], 3, 10, 5⟩ : CacheService.CacheState Bool).maxSize
              < e.size) :=
  c1_size_invariant [CacheService.CacheOp.get "z" 0] 10 5 "a" true none (some 3) 1 0
    (CacheService.initState Bool 10 5) _
    (by simp [CacheService.runOps, CacheService.applyOp, CacheService.get,
      CacheService.initState, JsMap.mapGet])
    (by simp [CacheService.set, CacheService.evictLoop, CacheService.initState,
      JsMap.mapHas, JsMap.mapGet, JsMap.mapSet, CacheService.orDefault])

/-- C6: a `get` or `has` strictly after an entry's expiry returns
absent/`false` and removes the entry, so a subsequent `size()` reflects
the removal; since this holds for every key, state and time, an entry is
never returned to a caller strictly past its expiry time. -/
theorem c6_ttl_correctness {α : Type} (s : CacheService.CacheState α)
    (k : String) (now : Int) (e : CacheService.CacheEntry α)
    (hn : (s.cache.map Prod.fst).Nodup)
    (hm : JsMap.mapGet k s.cache = some e)
    (hexp : now > e.expires) :
    (CacheService.get k now s).1 = none ∧
      JsMap.mapGet k ((CacheService.get k now s).2).cache = none ∧
      CacheService.size ((CacheService.get k now s).2) + 1 = CacheService.size s ∧
      (CacheService.has k now s).1 = false ∧
      JsMap.mapGet k ((CacheService.has k now s).2).cache = none ∧
      CacheService.size ((CacheService.has k now s).2) + 1 = CacheService.size s := by
  have hdel : (CacheService.delete k s).2.cache = JsMap.mapErase k s.cache := by
    unfold CacheService.delete
    rw [hm]
  have hget : CacheService.get k now s = (none, (CacheService.delete k s).2) := by
    unfold CacheService.get
    rw [hm]
    dsimp only
    rw [if_pos hexp]
  have hhas : CacheService.has k now s = (false, (CacheService.delete k s).2) := by
    unfold CacheService.has
    rw [hm]
    dsimp only
    rw [if_pos hexp]
  have herase : JsMap.mapGet k (JsMap.mapErase k s.cache) = none :=
    JsMap.mapGet_mapErase_self hn
  have hlen : (JsMap.mapErase k s.cache).length + 1 = s.cache.length :=
    JsMap.length_mapErase hm
  refine ⟨?_, ?_, ?_, ?_, ?_, ?_⟩
  · rw [hget]
  · rw [hget, hdel]
    exact herase
  · show ((CacheService.get k now s).2).cache.length + 1 = s.cache.length
    rw [hget, hdel]
    exact hlen
  · rw [hhas]
  · rw [hhas, hdel]
    exact herase
  · show ((CacheService.has k now s).2).cache.length + 1 = s.cache.length
    rw [hhas, hdel]
    exact hlen

/-- Witness for C6: an entry with expiry 5 read at time 6. -/
theorem c6_ttl_correctness_witness :
    (CacheService.get "k" 6 (⟨[("k", ⟨true, 0, 2, 5⟩)], 2, 10, 5⟩ :
        CacheService.CacheState Bool)).1 = none ∧
      JsMap.mapGet "k" ((CacheService.get "k" 6 (⟨[("k", ⟨true, 0, 2, 5⟩)], 2, 10, 5⟩ :
        CacheService.CacheState Bool)).2).cache = none ∧
      CacheService.size ((CacheService.get "k" 6 (⟨[("k", ⟨true, 0, 2, 5⟩)], 2, 10, 5⟩ :
        CacheService.CacheState Bool)).2) + 1
        = CacheService.size (⟨[("k", ⟨true, 0, 2, 5⟩)], 2, 10, 5⟩ :
          CacheService.CacheState Bool) ∧
      (CacheService.has "k" 6 (⟨[("k", ⟨true, 0, 2, 5⟩)], 2, 10, 5⟩ :
        CacheService.CacheState Bool)).1 = false ∧
      JsMap.mapGet "k" ((CacheService.has "k" 6 (⟨[("k", ⟨true, 0, 2, 5⟩)], 2, 10, 5⟩ :
        CacheService.CacheState Bool)).2).cache = none ∧
      CacheService.size ((CacheService.has "k" 6 (⟨[("k", ⟨true, 0, 2, 5⟩)], 2, 10, 5⟩ :
        CacheService.CacheState Bool)).2) + 1
        = CacheService.size (⟨[("k", ⟨true, 0, 2, 5⟩)], 2, 10, 5⟩ :
          CacheService.CacheState Bool) :=
  c6_ttl_correctness _ "k" 6 ⟨true, 0, 2, 5⟩ (by simp) (by simp [JsMap.mapGet])
    (by norm_num)

/-! ### The eviction scan and termination of the eviction loop -/

namespace CacheService

open JsMap

theorem findOldestAux_some_acc (l : List (String × CacheEntry α))
    (q : String × Int) : ∃ r, findOldestAux l (some q) = some r := by
  induction l generalizing q with
  | nil => exact ⟨q, rfl⟩
  | cons p rest ih =>
    obtain ⟨k1, e1⟩ := p
    obtain ⟨k0, t0⟩ := q
    unfold findOldestAux
    by_cases hlt : e1.timestamp < t0
    · simpa [hlt] using ih (k1, e1.timestamp)
    · simpa [hlt] using ih (k0, t0)

theorem findOldestAux_spec {l : List (String × CacheEntry α)}
    {acc : Option (String × Int)} {k : String} {t : Int}
    (h : findOldestAux l acc = some (k, t)) :
    ((∃ e, (k, e) ∈ l ∧ e.timestamp = t) ∨ acc = some (k, t)) ∧
      (∀ p ∈ l, t ≤ p.2.timestamp) ∧
      (∀ k0 t0, acc = some (k0, t0) → t ≤ t0) := by
  induction l generalizing acc with
  | nil =>
    simp only [findOldestAux] at h
    subst h
    refine ⟨Or.inr rfl, by simp, ?_⟩
    intro k0 t0 hacc
    injection hacc with hacc
    injection hacc with h1 h2
    rw [h2]
  | cons p rest ih =>
    obtain ⟨k1, e1⟩ := p
    cases acc with
    | none =>
      simp only [findOldestAux] at h
      obtain ⟨hmem, hmin, hacc⟩ := ih h
      have ht1 : t ≤ e1.timestamp := hacc k1 e1.timestamp rfl
      refine ⟨?_, ?_, by simp⟩
      · rcases hmem with ⟨e, he, het⟩ | heq
        · exact Or.inl ⟨e, List.mem_cons_of_mem _ he, het⟩
        · injection heq with heq
          injection heq with h1 h2
          exact Or.inl ⟨e1, by rw [h1]; exact List.mem_cons_self _ _, h2⟩
      · intro p hp
        rcases List.mem_cons.1 hp with hp | hp
        · rw [hp] at *
          exact ht1
        · exact hmin p hp
    | some q =>
      obtain ⟨k0, t0⟩ := q
      by_cases hlt : e1.timestamp < t0
      · simp only [findOldestAux, if_pos hlt] at h
        obtain ⟨hmem, hmin, hacc⟩ := ih h
        have ht1 : t ≤ e1.timestamp := hacc k1 e1.timestamp rfl
        refine ⟨?_, ?_, ?_⟩
        · rcases hmem with ⟨e, he, het⟩ | heq
          · exact Or.inl ⟨e, List.mem_cons_of_mem _ he, het⟩
          · injection heq with heq
            injection heq with h1 h2
            exact Or.inl ⟨e1, by rw [h1]; exact List.mem_cons_self _ _, h2⟩
        · intro p hp
          rcases List.mem_cons.1 hp with hp | hp
          · rw [hp]
            exact ht1
          · exact hmin p hp
        · intro k0' t0' hacc'
          injection hacc' with hacc'
          injection hacc' with h1 h2
          rw [← h2]
          exact le_trans ht1 (le_of_lt hlt)
      · simp only [findOldestAux, if_neg hlt] at h
        obtain ⟨hmem, hmin, hacc⟩ := ih h
        have ht0 : t ≤ t0 := hacc k0 t0 rfl
        refine ⟨?_, ?_, ?_⟩
        · rcases hmem with ⟨e, he, het⟩ | heq
          · exact Or.inl ⟨e, List.mem_cons_of_mem _ he, het⟩
          · exact Or.inr heq
        · intro p hp
          rcases List.mem_cons.1 hp with hp | hp
          · rw [hp]
            exact le_trans ht0 (le_of_not_lt hlt)
          · exact hmin p hp
        · intro k0' t0' hacc'
          injection hacc' with hacc'
          injection hacc' with h1 h2
          rw [← h2]
          exact ht0

theorem mapGet_isSome_of_mem {k : String} {l : List (String × β)} {v : β}
    (h : (k, v) ∈ l) : ∃ v', mapGet k l = some v' := by
  induction l with
  | nil => simp at h
  | cons p rest ih =>
    obtain ⟨k', v'⟩ := p
    by_cases h0 : k' = k
    · exact ⟨v', by simp [mapGet, h0]⟩
    · rcases List.mem_cons.1 h with hp | hp
      · injection hp with h1 h2
        exact absurd h1.symm h0
      · simpa [mapGet, h0] using ih hp

theorem delete_cache_sublist (k : String) (s : CacheState α) :
    ((delete k s).2).cache.Sublist s.cache := by
  unfold delete
  cases mapGet k s.cache with
  | none => exact List.Sublist.refl _
  | some e => exact mapErase_sublist k s.cache

theorem evict_cache_sublist (s : CacheState α) :
    (evictLeastRecentlyUsed s).cache.Sublist s.cache := by
  unfold evictLeastRecentlyUsed
  cases findOldestAux s.cache none with
  | none => exact List.Sublist.refl _
  | some p =>
    obtain ⟨k, t⟩ := p
    by_cases hk : k = ""
    · simp [hk]
    · simpa [hk] using delete_cache_sublist k s

theorem evict_length_lt {s : CacheState α} (hne : s.cache ≠ [])
    (hkeys : ∀ p ∈ s.cache, p.1 ≠ "") :
    (evictLeastRecentlyUsed s).cache.length < s.cache.length := by
  obtain ⟨p, rest, hpl⟩ : ∃ p rest, s.cache = p :: rest := by
    cases hc : s.cache with
    | nil => exact absurd hc hne
    | cons p rest => exact ⟨p, rest, rfl⟩
  have hsome : ∃ r, findOldestAux s.cache none = some r := by
    rw [hpl]
    obtain ⟨k1, e1⟩ := p
    simpa [findOldestAux] using findOldestAux_some_acc rest (k1, e1.timestamp)
  obtain ⟨⟨k, t⟩, hr⟩ := hsome
  obtain ⟨hmem, _, _⟩ := findOldestAux_spec hr
  rcases hmem with ⟨e, he, _⟩ | habs
  · have hk : k ≠ "" := hkeys (k, e) he
    obtain ⟨e', hge⟩ := mapGet_isSome_of_mem he
    unfold evictLeastRecentlyUsed
    rw [hr]
    dsimp only
    rw [if_neg hk]
    unfold delete
    rw [hge]
    dsimp only
    have := length_mapErase hge
    omega
  · exact absurd habs (by simp)

theorem evictLoop_total (es : ℚ) {fuel : Nat} {s : CacheState α}
    (hkeys : ∀ p ∈ s.cache, p.1 ≠ "") (hfuel : s.cache.length ≤ fuel) :
    ∃ s', evictLoop es fuel s = some s' := by
  induction fuel generalizing s with
  | zero =>
    have : s.cache = [] := List.length_eq_zero.1 (Nat.le_zero.1 hfuel)
    refine ⟨s, ?_⟩
    unfold evictLoop
    rw [if_neg]
    intro hg
    rw [this] at hg
    simp at hg
  | succ n ih =>
    by_cases hg : s.currentSize + es > s.maxSize ∧ s.cache.length > 0
    · have hne : s.cache ≠ [] := by
        intro hc
        rw [hc] at hg
        simp at hg
      have hlt := evict_length_lt hne hkeys
      have hkeys' : ∀ p ∈ (evictLeastRecentlyUsed s).cache, p.1 ≠ "" :=
        fun p hp => hkeys p ((evict_cache_sublist s).mem hp)
      obtain ⟨s', hs'⟩ := ih hkeys' (by omega)
      refine ⟨s', ?_⟩
      unfold evictLoop
      rw [if_pos hg]
      exact hs'
    · refine ⟨s, ?_⟩
      unfold evictLoop
      rw [if_neg hg]

theorem evictLoop_cache_sublist {es : ℚ} {fuel : Nat} {s s' : CacheState α}
    (h : evictLoop es fuel s = some s') : s'.cache.Sublist s.cache := by
  induction fuel generalizing s with
  | zero =>
    unfold evictLoop at h
    by_cases hg : s.currentSize + es > s.maxSize ∧ s.cache.length > 0
    · simp [hg] at h
    · simp only [if_neg hg, Option.some.injEq] at h
      subst h
      exact List.Sublist.refl _
  | succ n ih =>
    unfold evictLoop at h
    by_cases hg : s.currentSize + es > s.maxSize ∧ s.cache.length > 0
    · simp only [if_pos hg] at h
      exact (ih h).trans (evict_cache_sublist s)
    · simp only [if_neg hg, Option.some.injEq] at h
      subst h
      exact List.Sublist.refl _

theorem liveSum_nonneg {l : List (String × CacheEntry α)}
    (h : ∀ p ∈ l, 0 ≤ p.2.size) : 0 ≤ liveSum l := by
  induction l with
  | nil => simp [liveSum]
  | cons p rest ih =>
    simp only [liveSum, List.map_cons, List.sum_cons]
    have h1 := h p (List.mem_cons_self _ _)
    have h2 := ih (fun q hq => h q (List.mem_cons_of_mem _ hq))
    simp only [liveSum] at h2
    positivity

end CacheService

/-- C8: `set` never fails on an oversized value: when the entry's computed
size alone exceeds `maxSize` (and no live key is the empty string, so the
eviction loop makes progress), `set` completes, evicts every other entry,
and inserts the new entry anyway — afterwards the cache holds exactly that
entry. -/
theorem c8_oversized_entry_accepted {α : Type} (s : CacheService.CacheState α)
    (key : String) (data : α) (ttl : Option Int) (sizeArg : Option ℚ)
    (est : ℚ) (now : Int)
    (hwf : CacheService.WF s)
    (hpos : ∀ p ∈ s.cache, 0 ≤ p.2.size)
    (hkeys : ∀ p ∈ s.cache, p.1 ≠ "")
    (hbig : s.maxSize < CacheService.orDefault sizeArg est) :
    ∃ s', CacheService.set key data ttl sizeArg est now s = some s' ∧
      s'.cache = [(key, ⟨data, now, CacheService.orDefault sizeArg est,
        now + CacheService.orDefault ttl s.defaultTTL⟩)] ∧
      JsMap.mapGet key s'.cache
        = some ⟨data, now, CacheService.orDefault sizeArg est,
            now + CacheService.orDefault ttl s.defaultTTL⟩ := by
  unfold CacheService.set
  dsimp only
  have hwf1 : CacheService.WF
      (if JsMap.mapHas key s.cache then (CacheService.delete key s).2 else s) := by
    by_cases hh : JsMap.mapHas key s.cache
    · simpa [hh] using CacheService.WF_delete hwf key
    · simpa [hh] using hwf
  have hsub1 : (if JsMap.mapHas key s.cache then (CacheService.delete key s).2
      else s).cache.Sublist s.cache := by
    by_cases hh : JsMap.mapHas key s.cache
    · simpa [hh] using CacheService.delete_cache_sublist key s
    · simp [hh]
  have hmax1 : (if JsMap.mapHas key s.cache then (CacheService.delete key s).2
      else s).maxSize = s.maxSize := by
    by_cases hh : JsMap.mapHas key s.cache <;> simp [hh, CacheService.delete_maxSize]
  have hkeys1 : ∀ p ∈ (if JsMap.mapHas key s.cache then (CacheService.delete key s).2
      else s).cache, p.1 ≠ "" := fun p hp => hkeys p (hsub1.mem hp)
  obtain ⟨s2, hev⟩ := CacheService.evictLoop_total
    (CacheService.orDefault sizeArg est) hkeys1 le_rfl
  rw [hev]
  obtain ⟨hwf2, hmax2, _, hexit⟩ := CacheService.evictLoop_spec hev hwf1
  have hpos2 : ∀ p ∈ s2.cache, 0 ≤ p.2.size := fun p hp =>
    hpos p (hsub1.mem ((CacheService.evictLoop_cache_sublist hev).mem hp))
  have hcs2 : 0 ≤ s2.currentSize := by
    rw [hwf2.2]
    exact CacheService.liveSum_nonneg hpos2
  rcases hexit with hfit | hempty
  · exfalso
    rw [hmax2, hmax1] at hfit
    linarith
  · refine ⟨_, rfl, ?_, ?_⟩
    · show JsMap.mapSet key _ s2.cache = _
      rw [hempty]
      rfl
    · show JsMap.mapGet key (JsMap.mapSet key _ s2.cache) = _
      rw [JsMap.mapGet_mapSet_self]

/-- Witness for C8: a 12-byte entry into a 10-byte cache holding one
4-byte entry. -/
theorem c8_oversized_entry_accepted_witness :
    ∃ s', CacheService.set "big" true none (some 12) 1 3
        (⟨[("b", ⟨false, 0, 4, 9⟩)], 4, 10, 7⟩ : CacheService.CacheState Bool)
        = some s' ∧
      s'.cache = [("big", ⟨true, 3, CacheService.orDefault (some 12) 1,
        3 + CacheService.orDefault none
          (⟨[("b", ⟨false, 0, 4, 9⟩)], 4, 10, 7⟩ :
            CacheService.CacheState Bool).defaultTTL⟩)] ∧
      JsMap.mapGet "big" s'.cache
        = some ⟨true, 3, CacheService.orDefault (some 12) 1,
            3 + CacheService.orDefault none
              (⟨[("b", ⟨false, 0, 4, 9⟩)], 4, 10, 7⟩ :
                CacheService.CacheState Bool).defaultTTL⟩ :=
  c8_oversized_entry_accepted _ "big" true none (some 12) 1 3
    ⟨by simp, by norm_num [CacheService.liveSum]⟩
    (by
      intro p hp
      simp only [List.mem_singleton] at hp
      rw [hp]
      norm_num)
    (by
      intro p hp
      simp only [List.mem_singleton] at hp
      rw [hp]
      simp)
    (by norm_num [CacheService.orDefault])

/-- C9: refuted — `set` does NOT terminate for every input.  With a live
entry under the empty-string key, `evictLeastRecentlyUsed` picks `""` as
the oldest key but the JavaScript truthiness guard `if (oldestKey)`
treats it as falsy and deletes nothing, so the eviction loop inside `set`
makes no progress: it fails to reach its exit condition for every fuel
bound, i.e. the source `while` loop runs forever. -/
theorem c9_set_diverges_on_empty_key :
    CacheService.evictLeastRecentlyUsed
        (⟨[("", ⟨"x", 0, 3, 100⟩)], 3, 5, 50⟩ : CacheService.CacheState String)
      = (⟨[("", ⟨"x", 0, 3, 100⟩)], 3, 5, 50⟩ : CacheService.CacheState String) ∧
    (∀ fuel : Nat, CacheService.evictLoop (3 : ℚ) fuel
        (⟨[("", ⟨"x", 0, 3, 100⟩)], 3, 5, 50⟩ : CacheService.CacheState String)
      = none) ∧
    CacheService.set "k" "y" none (some 3) 1 0
        (⟨[("", ⟨"x", 0, 3, 100⟩)], 3, 5, 50⟩ : CacheService.CacheState String)
      = none := by
  have hstep : CacheService.evictLeastRecentlyUsed
      (⟨[("", ⟨"x", 0, 3, 100⟩)], 3, 5, 50⟩ : CacheService.CacheState String)
      = (⟨[("", ⟨"x", 0, 3, 100⟩)], 3, 5, 50⟩ : CacheService.CacheState String) := by
    simp [CacheService.evictLeastRecentlyUsed, CacheService.findOldestAux]
  have hguard : ((⟨[("", ⟨"x", 0, 3, 100⟩)], 3, 5, 50⟩ :
        CacheService.CacheState String).currentSize + (3 : ℚ)
          > (⟨[("", ⟨"x", 0, 3, 100⟩)], 3, 5, 50⟩ :
            CacheService.CacheState String).maxSize) ∧
      (⟨[("", ⟨"x", 0, 3, 100⟩)], 3, 5, 50⟩ :
        CacheService.CacheState String).cache.length > 0 := by
    constructor
    · norm_num
    · simp
  have hloop : ∀ fuel : Nat, CacheService.evictLoop (3 : ℚ) fuel
      (⟨[("", ⟨"x", 0, 3, 100⟩)], 3, 5, 50⟩ : CacheService.CacheState String)
      = none := by
    intro fuel
    induction fuel with
    | zero =>
      unfold CacheService.evictLoop
      rw [if_pos hguard]
    | succ n ih =>
      unfold CacheService.evictLoop
      rw [if_pos hguard, hstep]
      exact ih
  refine ⟨hstep, hloop, ?_⟩
  unfold CacheService.set
  dsimp only
  have hhas : JsMap.mapHas "k"
      (⟨[("", ⟨"x", 0, 3, 100⟩)], 3, 5, 50⟩ :
        CacheService.CacheState String).cache = false := by
    simp [JsMap.mapHas, JsMap.mapGet]
  rw [hhas]
  have hor : CacheService.orDefault (some (3 : ℚ)) 1 = 3 := by
    norm_num [CacheService.orDefault]
  simp only [if_neg Bool.false_ne_true, hor]
  rw [hloop]

namespace JsMap

theorem mapSet_mem_or {p : String × β} {k : String} {v : β}
    {l : List (String × β)} (h : p ∈ mapSet k v l) : p = (k, v) ∨ p ∈ l := by
  induction l with
  | nil => simpa [mapSet] using h
  | cons q rest ih =>
    obtain ⟨k', v'⟩ := q
    by_cases h0 : k' = k
    · simp only [mapSet, if_pos h0] at h
      rcases List.mem_cons.1 h with hp | hp
      · exact Or.inl hp
      · exact Or.inr (List.mem_cons_of_mem _ hp)
    · simp only [mapSet, if_neg h0] at h
      rcases List.mem_cons.1 h with hp | hp
      · exact Or.inr (by rw [hp]; exact List.mem_cons_self _ _)
      · rcases ih hp with hp' | hp'
        · exact Or.inl hp'
        · exact Or.inr (List.mem_cons_of_mem _ hp')

theorem mem_mapSet_of_ne {p : String × β} {k : String} {v : β}
    {l : List (String × β)} (h : p ∈ l) (hne : p.1 ≠ k) : p ∈ mapSet k v l := by
  induction l with
  | nil => simp at h
  | cons q rest ih =>
    obtain ⟨k', v'⟩ := q
    by_cases h0 : k' = k
    · simp only [mapSet, if_pos h0]
      rcases List.mem_cons.1 h with hp | hp
      · exfalso
        apply hne
        rw [hp, ← h0]
      · exact List.mem_cons_of_mem _ hp
    · simp only [mapSet, if_neg h0]
      rcases List.mem_cons.1 h with hp | hp
      · rw [hp]
        exact List.mem_cons_self _ _
      · exact List.mem_cons_of_mem _ (ih hp)

theorem mem_mapSet_nodup {p : String × β} {k : String} {v : β}
    {l : List (String × β)} (hn : (l.map Prod.fst).Nodup)
    (h : p ∈ mapSet k v l) : p = (k, v) ∨ (p ∈ l ∧ p.1 ≠ k) := by
  induction l with
  | nil => simpa [mapSet] using h
  | cons q rest ih =>
    obtain ⟨k', v'⟩ := q
    simp only [List.map_cons, List.nodup_cons] at hn
    by_cases h0 : k' = k
    · simp only [mapSet, if_pos h0] at h
      rcases List.mem_cons.1 h with hp | hp
      · exact Or.inl hp
      · refine Or.inr ⟨List.mem_cons_of_mem _ hp, ?_⟩
        intro hpk
        apply hn.1
        rw [h0, ← hpk]
        exact List.mem_map.2 ⟨p, hp, rfl⟩
    · simp only [mapSet, if_neg h0] at h
      rcases List.mem_cons.1 h with hp | hp
      · refine Or.inr ⟨by rw [hp]; exact List.mem_cons_self _ _, ?_⟩
        rw [hp]
        exact h0
      · rcases ih hn.2 hp with hp' | hp'
        · exact Or.inl hp'
        · exact Or.inr ⟨List.mem_cons_of_mem _ hp'.1, hp'.2⟩

theorem mapGet_of_mem_nodup {k : String} {v : β} {l : List (String × β)}
    (hn : (l.map Prod.fst).Nodup) (h : (k, v) ∈ l) : mapGet k l = some v := by
  induction l with
  | nil => simp at h
  | cons q rest ih =>
    obtain ⟨k', v'⟩ := q
    simp only [List.map_cons, List.nodup_cons] at hn
    rcases List.mem_cons.1 h with hp | hp
    · injection hp with h1 h2
      rw [← h1, ← h2]
      simp [mapGet]
    · have hk : k' ≠ k := by
        intro he
        apply hn.1
        rw [he]
        exact List.mem_map.2 ⟨(k, v), hp, rfl⟩
      simp only [mapGet, if_neg hk]
      exact ih hn.2 hp

end JsMap

/-- C5: eviction is least-recently-touched, and a successful `get`
refreshes recency.  If `a`'s entry is unexpired at read time `tg` and
every other live entry was touched strictly before `tg` (so `a` becomes
the most recently touched after the read, regardless of how old it was
before), then the single eviction performed by a capacity-forced `set`
removes an entry other than `a` whose timestamp is minimal among the
live entries, and `a` — now carrying timestamp `tg` — survives. -/
theorem c5_lru_eviction {α : Type} (s : CacheService.CacheState α)
    (a : String) (tg : Int) (ea : CacheService.CacheEntry α)
    (hn : (s.cache.map Prod.fst).Nodup)
    (ha : JsMap.mapGet a s.cache = some ea)
    (hfresh : ¬ tg > ea.expires)
    (hkeys : ∀ p ∈ s.cache, p.1 ≠ "")
    (hother : ∀ p ∈ s.cache, p.1 ≠ a → p.2.timestamp < tg)
    (hex : ∃ p ∈ s.cache, p.1 ≠ a) :
    (CacheService.get a tg s).1 = some ea.data ∧
    ∃ k ek, k ≠ a ∧
      JsMap.mapGet k ((CacheService.get a tg s).2).cache = some ek ∧
      (∀ p ∈ ((CacheService.get a tg s).2).cache,
        ek.timestamp ≤ p.2.timestamp) ∧
      CacheService.evictLeastRecentlyUsed ((CacheService.get a tg s).2)
        = (CacheService.delete k ((CacheService.get a tg s).2)).2 ∧
      JsMap.mapGet a
          (CacheService.evictLeastRecentlyUsed
            ((CacheService.get a tg s).2)).cache
        = some { ea with timestamp := tg } := by
  have hget : CacheService.get a tg s
      = (some ea.data,
        { s with cache := JsMap.mapSet a { ea with timestamp := tg } s.cache }) := by
    unfold CacheService.get
    rw [ha]
    dsimp only
    rw [if_neg hfresh]
  rw [hget]
  refine ⟨rfl, ?_⟩
  have hmem1 : ∀ p ∈ JsMap.mapSet a { ea with timestamp := tg } s.cache,
      p = (a, { ea with timestamp := tg }) ∨ (p ∈ s.cache ∧ p.1 ≠ a) :=
    fun p hp => JsMap.mem_mapSet_nodup hn hp
  have hn1 : ((JsMap.mapSet a { ea with timestamp := tg } s.cache).map
      Prod.fst).Nodup := by
    rw [JsMap.map_fst_mapSet_of_some _ ha]
    exact hn
  have hne1 : JsMap.mapSet a { ea with timestamp := tg } s.cache ≠ [] := by
    intro hc
    have := JsMap.mapGet_mapSet_self a { ea with timestamp := tg } s.cache
    rw [hc] at this
    simp [JsMap.mapGet] at this
  obtain ⟨q, rest, hql⟩ : ∃ q rest,
      JsMap.mapSet a { ea with timestamp := tg } s.cache = q :: rest := by
    cases hc : JsMap.mapSet a { ea with timestamp := tg } s.cache with
    | nil => exact absurd hc hne1
    | cons q rest => exact ⟨q, rest, rfl⟩
  have hsome : ∃ r, CacheService.findOldestAux
      (JsMap.mapSet a { ea with timestamp := tg } s.cache) none = some r := by
    rw [hql]
    obtain ⟨k1, e1⟩ := q
    simpa [CacheService.findOldestAux]
      using CacheService.findOldestAux_some_acc rest (k1, e1.timestamp)
  obtain ⟨⟨k, t⟩, hr⟩ := hsome
  obtain ⟨hmemk, hmin, _⟩ := CacheService.findOldestAux_spec hr
  rcases hmemk with ⟨ek, hek, hekt⟩ | habs
  swap
  · exact absurd habs (by simp)
  have hka : k ≠ a := by
    intro hkeq
    rw [hkeq] at hek
    rcases hmem1 _ hek with hp' | hp'
    · injection hp' with h1 h2
      obtain ⟨pb, hpb, hpba⟩ := hex
      have hpb1 : pb ∈ JsMap.mapSet a { ea with timestamp := tg } s.cache :=
        JsMap.mem_mapSet_of_ne hpb hpba
      have hlt := hother pb hpb hpba
      have hle := hmin pb hpb1
      rw [← hekt, h2] at hle
      simp only at hle
      omega
    · exact hp'.2 rfl
  have hkne : k ≠ "" := by
    rcases hmem1 _ hek with hp' | hp'
    · injection hp' with h1 h2
      exact absurd h1 hka
    · exact hkeys (k, ek) hp'.1
  have hgk : JsMap.mapGet k (JsMap.mapSet a { ea with timestamp := tg } s.cache)
      = some ek := JsMap.mapGet_of_mem_nodup hn1 hek
  have hevict : CacheService.evictLeastRecentlyUsed
      ({ s with cache := JsMap.mapSet a { ea with timestamp := tg } s.cache } :
        CacheService.CacheState α)
      = (CacheService.delete k
        ({ s with cache := JsMap.mapSet a { ea with timestamp := tg } s.cache } :
          CacheService.CacheState α)).2 := by
    unfold CacheService.evictLeastRecentlyUsed
    dsimp only
    rw [hr]
    dsimp only
    rw [if_neg hkne]
  refine ⟨k, ek, hka, hgk, ?_, hevict, ?_⟩
  · intro p hp
    rw [hekt]
    exact hmin p hp
  · rw [hevict]
    unfold CacheService.delete
    dsimp only
    rw [hgk]
    dsimp only
    rw [JsMap.mapGet_mapErase_ne _ (fun h => hka h.symm)]
    exact JsMap.mapGet_mapSet_self a { ea with timestamp := tg } s.cache

/-- Witness for C5: entry `a` (touched at 0, the prior oldest) is read at
time 7; the eviction then removes `b` (touched at 5), not `a`. -/
theorem c5_lru_eviction_witness :
    (CacheService.get "a" 7
        (⟨[("a", ⟨1, 0, 1, 100⟩), ("b", ⟨2, 5, 1, 100⟩)], 2, 10, 5⟩ :
          CacheService.CacheState Nat)).1 = some 1 ∧
    ∃ k ek, k ≠ "a" ∧
      JsMap.mapGet k ((CacheService.get "a" 7
        (⟨[("a", ⟨1, 0, 1, 100⟩), ("b", ⟨2, 5, 1, 100⟩)], 2, 10, 5⟩ :
          CacheService.CacheState Nat)).2).cache = some ek ∧
      (∀ p ∈ ((CacheService.get "a" 7
        (⟨[("a", ⟨1, 0, 1, 100⟩), ("b", ⟨2, 5, 1, 100⟩)], 2, 10, 5⟩ :
          CacheService.CacheState Nat)).2).cache,
        ek.timestamp ≤ p.2.timestamp) ∧
      CacheService.evictLeastRecentlyUsed ((CacheService.get "a" 7
        (⟨[("a", ⟨1, 0, 1, 100⟩), ("b", ⟨2, 5, 1, 100⟩)], 2, 10, 5⟩ :
          CacheService.CacheState Nat)).2)
        = (CacheService.delete k ((CacheService.get "a" 7
          (⟨[("a", ⟨1, 0, 1, 100⟩), ("b", ⟨2, 5, 1, 100⟩)], 2, 10, 5⟩ :
            CacheService.CacheState Nat)).2)).2 ∧
      JsMap.mapGet "a"
          (CacheService.evictLeastRecentlyUsed ((CacheService.get "a" 7
            (⟨[("a", ⟨1, 0, 1, 100⟩), ("b", ⟨2, 5, 1, 100⟩)], 2, 10, 5⟩ :
              CacheService.CacheState Nat)).2)).cache
        = some ⟨1, 7, 1, 100⟩ :=
  c5_lru_eviction _ "a" 7 ⟨1, 0, 1, 100⟩
    (by simp)
    (by simp [JsMap.mapGet])
    (by norm_num)
    (by
      intro p hp
      simp only [List.mem_cons, List.not_mem_nil, or_false] at hp
      rcases hp with h | h <;> rw [h] <;> simp)
    (by
      intro p hp hpa
      simp only [List.mem_cons, List.not_mem_nil, or_false] at hp
      rcases hp with h | h
      · rw [h] at hpa
        simp at hpa
      · rw [h]
        norm_num)
    ⟨("b", ⟨2, 5, 1, 100⟩), by simp, by simp⟩

/-! ### History engine lemmas -/

namespace Store

theorem undo_frame (s : AppState α π) :
    (undo s).2.project = s.project ∧ (undo s).2.history = s.history ∧
      (undo s).2.maxHistorySteps = s.maxHistorySteps := by
  unfold undo
  by_cases h : s.historyIndex < 0 <;> simp [h]

theorem redo_frame (s : AppState α π) :
    (redo s).2.project = s.project ∧ (redo s).2.history = s.history ∧
      (redo s).2.maxHistorySteps = s.maxHistorySteps := by
  unfold redo
  by_cases h : s.historyIndex ≥ (s.history.length : Int) - 1 <;> simp [h]

theorem addToHistory_max (a : α) (s : AppState α π) :
    (addToHistory a s).maxHistorySteps = s.maxHistorySteps := rfl

theorem addToHistory_project (a : α) (s : AppState α π) :
    (addToHistory a s).project = s.project := rfl

theorem sliceTo_length_le (e : Int) (l : List α) :
    (sliceTo e l).length ≤ l.length := by
  unfold sliceTo
  split <;> rw [List.length_take] <;> omega

theorem addToHistory_length_le {s : AppState α π} (a : α)
    (h0 : 0 ≤ s.maxHistorySteps)
    (h : (s.history.length : Int) ≤ s.maxHistorySteps) :
    ((addToHistory a s).history.length : Int) ≤ s.maxHistorySteps := by
  unfold addToHistory
  dsimp only
  have h1 := sliceTo_length_le (s.historyIndex + 1) s.history
  split
  · rename_i hgt
    rw [List.length_drop]
    push_cast
    simp only [List.length_append, List.length_cons, List.length_nil] at *
    omega
  · rename_i hle
    push_cast at hle ⊢
    simp only [List.length_append, List.length_cons, List.length_nil] at *
    omega

end Store

/-- C10: `undo()` and `redo()` modify only the cursor: the project, the
history log and the settings are untouched; `undo` returns the action at
the cursor and decrements it, `redo` returns the action just after the
cursor and increments it, and at a boundary both are pure no-ops
returning `null`. -/
theorem c10_undo_redo_frame {α π : Type} (s : Store.AppState α π) :
    (Store.undo s).2.project = s.project ∧
    (Store.undo s).2.history = s.history ∧
    (Store.undo s).2.maxHistorySteps = s.maxHistorySteps ∧
    (Store.undo s).1 = (if s.historyIndex < 0 then none
      else Store.jsIndex s.history s.historyIndex) ∧
    (Store.undo s).2.historyIndex = (if s.historyIndex < 0 then s.historyIndex
      else s.historyIndex - 1) ∧
    (Store.redo s).2.project = s.project ∧
    (Store.redo s).2.history = s.history ∧
    (Store.redo s).2.maxHistorySteps = s.maxHistorySteps ∧
    (Store.redo s).1 = (if s.historyIndex ≥ (s.history.length : Int) - 1 then none
      else Store.jsIndex s.history (s.historyIndex + 1)) ∧
    (Store.redo s).2.historyIndex
      = (if s.historyIndex ≥ (s.history.length : Int) - 1 then s.historyIndex
        else s.historyIndex + 1) := by
  obtain ⟨hu1, hu2, hu3⟩ := Store.undo_frame s
  obtain ⟨hr1, hr2, hr3⟩ := Store.redo_frame s
  refine ⟨hu1, hu2, hu3, ?_, ?_, hr1, hr2, hr3, ?_, ?_⟩ <;>
    by_cases h : s.historyIndex < 0 <;>
    by_cases h' : s.historyIndex ≥ (s.history.length : Int) - 1 <;>
    simp [Store.undo, Store.redo, h, h']

/-- C4: `addToHistory` discards the redo branch before appending: with the
cursor strictly below the tip, everything after the cursor is dropped, the
new action is appended, and the cursor points at the new tip; concretely,
from log `[a,b,c]` with cursor 2, two `undo`s followed by adding `d`
yield log `[a,d]` with cursor 1. -/
theorem c4_branch_truncation {α π : Type} (s : Store.AppState α π) (x : α)
    (a b c d : α) (p : π) (M : Int)
    (hidx : -1 ≤ s.historyIndex)
    (hmid : s.historyIndex < (s.history.length : Int) - 1)
    (hlen : (s.history.length : Int) ≤ s.maxHistorySteps)
    (hM : 2 ≤ M) :
    (Store.addToHistory x s).history
        = s.history.take (s.historyIndex + 1).toNat ++ [x] ∧
    (Store.addToHistory x s).historyIndex = s.historyIndex + 1 ∧
    (Store.addToHistory d (Store.undo (Store.undo
        (⟨p, [a, b, c], 2, M⟩ : Store.AppState α π)).2).2).history = [a, d] ∧
    (Store.addToHistory d (Store.undo (Store.undo
        (⟨p, [a, b, c], 2, M⟩ : Store.AppState α π)).2).2).historyIndex = 1 := by
  have htake : (s.history.take (s.historyIndex + 1).toNat).length
      = (s.historyIndex + 1).toNat := by
    rw [List.length_take]
    omega
  have hslice : Store.sliceTo (s.historyIndex + 1) s.history
      = s.history.take (s.historyIndex + 1).toNat := by
    unfold Store.sliceTo
    rw [if_pos (by omega)]
  have hnodrop : ¬ (((s.history.take (s.historyIndex + 1).toNat ++ [x]).length : Int)
      > s.maxHistorySteps) := by
    rw [List.length_append, htake]
    simp only [List.length_cons, List.length_nil]
    omega
  have hist_eq : (Store.addToHistory x s).history
      = s.history.take (s.historyIndex + 1).toNat ++ [x] := by
    unfold Store.addToHistory
    dsimp only
    rw [hslice, if_neg hnodrop]
  have idx_eq : (Store.addToHistory x s).historyIndex
      = ((s.history.take (s.historyIndex + 1).toNat ++ [x]).length : Int) - 1 := by
    unfold Store.addToHistory
    dsimp only
    rw [hslice, if_neg hnodrop]
  have hu1 : Store.undo (⟨p, [a, b, c], 2, M⟩ : Store.AppState α π)
      = (Store.jsIndex [a, b, c] 2, ⟨p, [a, b, c], 1, M⟩) := by
    unfold Store.undo
    rw [if_neg (by norm_num)]
    rfl
  have hu2 : Store.undo (⟨p, [a, b, c], 1, M⟩ : Store.AppState α π)
      = (Store.jsIndex [a, b, c] 1, ⟨p, [a, b, c], 0, M⟩) := by
    unfold Store.undo
    rw [if_neg (by norm_num)]
    rfl
  have hslice0 : Store.sliceTo (0 + 1) [a, b, c] = [a] := by
    unfold Store.sliceTo
    rw [if_pos (by omega)]
    rfl
  have hcond : ¬ ((([a] ++ [d]).length : Int) > M) := by
    simp only [List.length_append, List.length_cons, List.length_nil]
    omega
  have hadd_hist : (Store.addToHistory d
      (⟨p, [a, b, c], 0, M⟩ : Store.AppState α π)).history = [a, d] := by
    unfold Store.addToHistory
    dsimp only
    rw [hslice0, if_neg hcond]
    rfl
  have hadd_idx : (Store.addToHistory d
      (⟨p, [a, b, c], 0, M⟩ : Store.AppState α π)).historyIndex = 1 := by
    unfold Store.addToHistory
    dsimp only
    rw [hslice0, if_neg hcond]
    simp
  refine ⟨hist_eq, ?_, ?_, ?_⟩
  · rw [idx_eq, List.length_append, htake]
    simp only [List.length_cons, List.length_nil]
    omega
  · rw [hu1]
    dsimp only
    rw [hu2]
    dsimp only
    exact hadd_hist
  · rw [hu1]
    dsimp only
    rw [hu2]
    dsimp only
    exact hadd_idx

/-- Witness for C4: cursor 0 in a two-entry log, plus the `[a,b,c]`
scenario with concrete actions 1,2,3,4 and `maxHistorySteps = 2`. -/
theorem c4_branch_truncation_witness :
    (Store.addToHistory 30 (⟨(), [10, 20], 0, 5⟩ :
        Store.AppState Nat Unit)).history = [10, 30] ∧
    (Store.addToHistory 30 (⟨(), [10, 20], 0, 5⟩ :
        Store.AppState Nat Unit)).historyIndex = 1 ∧
    (Store.addToHistory 4 (Store.undo (Store.undo
        (⟨(), [1, 2, 3], 2, 2⟩ : Store.AppState Nat Unit)).2).2).history = [1, 4] ∧
    (Store.addToHistory 4 (Store.undo (Store.undo
        (⟨(), [1, 2, 3], 2, 2⟩ : Store.AppState Nat Unit)).2).2).historyIndex = 1 :=
  c4_branch_truncation (⟨(), [10, 20], 0, 5⟩ : Store.AppState Nat Unit) 30
    1 2 3 4 () 2 (by decide) (by decide) (by decide) (by decide)

/-- C3 (counterexample): the history-length bound is violated in a
reachable state.  Starting from the default-like settings (max 50), adding
three actions and then lowering `maxHistorySteps` to 2 via
`updateSettings` leaves a log of length 3 with a bound of 2 —
`addToHistory` drops at most one entry per call and `updateSettings`
drops none, so the claimed invariant fails over sequences that include
`updateSettings`. -/
theorem c3_counterexample :
    ¬ (((Store.runH [Store.HOp.add 1, Store.HOp.add 2, Store.HOp.add 3,
          Store.HOp.updateSettings (some 2)]
          (Store.initApp () 50 : Store.AppState Nat Unit)).history.length : Int)
        ≤ (Store.runH [Store.HOp.add 1, Store.HOp.add 2, Store.HOp.add 3,
          Store.HOp.updateSettings (some 2)]
          (Store.initApp () 50 : Store.AppState Nat Unit)).maxHistorySteps) := by
  decide

/-- C3 (amended): over operation sequences that never call
`updateSettings` (so `maxHistorySteps` is a fixed non-negative bound), the
log length never exceeds `maxHistorySteps`; when an `addToHistory` would
exceed it, the oldest entry is dropped and the cursor stays on the newest
action; in particular with `maxHistorySteps = 2`, adding `a, b, c` yields
log `[b, c]` with cursor 1. -/
theorem c3_depth_bound {α π : Type} (ops : List (Store.HOp α)) (p : π)
    (M : Int) (a b c : α)
    (hM : 0 ≤ M)
    (hnoset : ∀ m, Store.HOp.updateSettings m ∉ ops) :
    ((Store.runH ops (Store.initApp p M : Store.AppState α π)).history.length : Int)
        ≤ (Store.runH ops (Store.initApp p M : Store.AppState α π)).maxHistorySteps ∧
    (Store.runH [Store.HOp.add a, Store.HOp.add b, Store.HOp.add c]
        (Store.initApp p 2 : Store.AppState α π)).history = [b, c] ∧
    (Store.runH [Store.HOp.add a, Store.HOp.add b, Store.HOp.add c]
        (Store.initApp p 2 : Store.AppState α π)).historyIndex = 1 := by
  have hmain : ∀ (ops' : List (Store.HOp α)) (s : Store.AppState α π),
      (∀ m, Store.HOp.updateSettings m ∉ ops') →
      0 ≤ s.maxHistorySteps →
      (s.history.length : Int) ≤ s.maxHistorySteps →
      ((Store.runH ops' s).history.length : Int) ≤ (Store.runH ops' s).maxHistorySteps ∧
        (Store.runH ops' s).maxHistorySteps = s.maxHistorySteps := by
    intro ops'
    induction ops' with
    | nil => exact fun s _ _ h => ⟨h, rfl⟩
    | cons op rest ih =>
      intro s hno h0 hlen
      have hno' : ∀ m, Store.HOp.updateSettings m ∉ rest :=
        fun m hm => hno m (List.mem_cons_of_mem _ hm)
      cases op with
      | add x =>
        have h1 := Store.addToHistory_length_le x h0 hlen
        have h2 := Store.addToHistory_max x s
        have := ih (Store.addToHistory x s) hno' (h2 ▸ h0) (h2 ▸ h1)
        exact ⟨this.1, this.2.trans h2⟩
      | undo =>
        obtain ⟨_, hh, hm⟩ := Store.undo_frame s
        have := ih (Store.undo s).2 hno' (hm ▸ h0) (by rw [hh, hm]; exact hlen)
        exact ⟨this.1, this.2.trans hm⟩
      | redo =>
        obtain ⟨_, hh, hm⟩ := Store.redo_frame s
        have := ih (Store.redo s).2 hno' (hm ▸ h0) (by rw [hh, hm]; exact hlen)
        exact ⟨this.1, this.2.trans hm⟩
      | clearHistory =>
        have := ih (Store.clearHistory s) hno' h0 (by simpa [Store.clearHistory] using h0)
        exact ⟨this.1, this.2⟩
      | updateSettings m =>
        exact absurd (List.mem_cons_self _ _) (hno m)
  refine ⟨(hmain ops (Store.initApp p M) hnoset (by exact hM) (by exact hM)).1,
    ?_, ?_⟩
  · show (Store.addToHistory c (Store.addToHistory b (Store.addToHistory a
      (Store.initApp p 2 : Store.AppState α π)))).history = [b, c]
    unfold Store.addToHistory Store.initApp Store.sliceTo
    norm_num
    rfl
  · show (Store.addToHistory c (Store.addToHistory b (Store.addToHistory a
      (Store.initApp p 2 : Store.AppState α π)))).historyIndex = 1
    unfold Store.addToHistory Store.initApp Store.sliceTo
    norm_num

/-- Witness for C3's amended depth bound: the ops `[add 7, undo]` with
bound 1, and the concrete `a,b,c` run with bound 2. -/
theorem c3_depth_bound_witness :
    (((Store.runH [Store.HOp.add 7, Store.HOp.undo]
        (Store.initApp () 1 : Store.AppState Nat Unit)).history.length : Int)
      ≤ (Store.runH [Store.HOp.add 7, Store.HOp.undo]
        (Store.initApp () 1 : Store.AppState Nat Unit)).maxHistorySteps) ∧
    (Store.runH [Store.HOp.add 1, Store.HOp.add 2, Store.HOp.add 3]
        (Store.initApp () 2 : Store.AppState Nat Unit)).history = [2, 3] ∧
    (Store.runH [Store.HOp.add 1, Store.HOp.add 2, Store.HOp.add 3]
        (Store.initApp () 2 : Store.AppState Nat Unit)).historyIndex = 1 :=
  c3_depth_bound [Store.HOp.add 7, Store.HOp.undo] () 1 1 2 3 (by decide)
    (by intro m hm; simp at hm)

/-- C7 (counterexample): the round-trip fails at `maxHistorySteps = 0` —
`addToHistory(a)` immediately drops the only entry, leaving an empty log,
so the subsequent `redo()` returns `null`, not `a`. -/
theorem c7_counterexample :
    (Store.redo (Store.undo (Store.addToHistory 1
        (Store.initApp () 0 : Store.AppState Nat Unit))).2).1 = none ∧
    (Store.redo (Store.undo (Store.addToHistory 1
        (Store.initApp () 0 : Store.AppState Nat Unit))).2).1 ≠ some 1 := by
  decide

/-- C7 (amended): provided `maxHistorySteps ≥ 1`, after `addToHistory(a)`
the sequence `undo(); redo()` has `redo()` return `a` and leaves the
cursor exactly where it was immediately after the `addToHistory(a)`. -/
theorem c7_undo_redo_roundtrip {α π : Type} (s : Store.AppState α π) (a : α)
    (hmax : 1 ≤ s.maxHistorySteps) :
    (Store.redo (Store.undo (Store.addToHistory a s)).2).1 = some a ∧
    (Store.redo (Store.undo (Store.addToHistory a s)).2).2.historyIndex
      = (Store.addToHistory a s).historyIndex := by
  obtain ⟨pre, hH⟩ : ∃ pre, (Store.addToHistory a s).history = pre ++ [a] := by
    unfold Store.addToHistory
    dsimp only
    by_cases hc : (((Store.sliceTo (s.historyIndex + 1) s.history ++ [a]).length : Int)
        > s.maxHistorySteps)
    · rw [if_pos hc]
      cases hsl : Store.sliceTo (s.historyIndex + 1) s.history with
      | nil =>
        exfalso
        rw [hsl] at hc
        simp only [List.nil_append, List.length_cons, List.length_nil] at hc
        omega
      | cons y ys =>
        exact ⟨ys, rfl⟩
    · rw [if_neg hc]
      exact ⟨_, rfl⟩
  have hidx3 : (Store.addToHistory a s).historyIndex = (pre.length : Int) := by
    have hdef : (Store.addToHistory a s).historyIndex
        = ((Store.addToHistory a s).history.length : Int) - 1 := rfl
    rw [hdef, hH, List.length_append]
    simp only [List.length_cons, List.length_nil]
    push_cast
    ring
  have hundo : Store.undo (Store.addToHistory a s)
      = (Store.jsIndex (Store.addToHistory a s).history (pre.length : Int),
        { Store.addToHistory a s with historyIndex := (pre.length : Int) - 1 }) := by
    unfold Store.undo
    rw [hidx3, if_neg (by omega)]
  rw [hundo]
  dsimp only
  unfold Store.redo
  dsimp only
  rw [hH]
  rw [if_neg (by
    simp only [List.length_append, List.length_cons, List.length_nil]
    push_cast
    omega)]
  have hstep : ((pre.length : Int) - 1) + 1 = (pre.length : Int) := by ring
  constructor
  · rw [hstep]
    unfold Store.jsIndex
    rw [if_pos (by positivity)]
    rw [Int.toNat_natCast]
    exact List.get?_concat_length pre a
  · dsimp only
    rw [hidx3, hstep]

/-- Witness for C7's round-trip: adding action 9 with bound 3. -/
theorem c7_undo_redo_roundtrip_witness :
    (Store.redo (Store.undo (Store.addToHistory 9
        (Store.initApp () 3 : Store.AppState Nat Unit))).2).1 = some 9 ∧
    (Store.redo (Store.undo (Store.addToHistory 9
        (Store.initApp () 3 : Store.AppState Nat Unit))).2).2.historyIndex
      = (Store.addToHistory 9
        (Store.initApp () 3 : Store.AppState Nat Unit)).historyIndex :=
  c7_undo_redo_roundtrip (Store.initApp () 3 : Store.AppState Nat Unit) 9
    (by decide)

namespace JsMap

theorem mapErase_of_none {k : String} {l : List (String × β)}
    (h : mapGet k l = none) : mapErase k l = l := by
  induction l with
  | nil => rfl
  | cons p rest ih =>
    obtain ⟨k', v⟩ := p
    by_cases h0 : k' = k
    · rw [h0] at h
      simp [mapGet] at h
    · simp only [mapGet, if_neg h0] at h
      simp [mapErase, h0, ih h]

end JsMap

namespace TranslationService

theorem tryProviders_none {providers : List (String × Except String String)}
    (h : ∀ p ∈ providers, ∃ e, p.2 = Except.error e) :
    tryProviders providers = none := by
  induction providers with
  | nil => rfl
  | cons p rest ih =>
    obtain ⟨name, r⟩ := p
    obtain ⟨e, he⟩ := h (name, r) (List.mem_cons_self _ _)
    simp only at he
    subst he
    exact ih (fun q hq => h q (List.mem_cons_of_mem _ hq))

end TranslationService

/-- C2 (counterexample): `ImageCacheService.cacheImage` does NOT propagate
a compute failure: on a fresh cache, a failing compression is caught and
the call returns the original URL as a successful result — a fallback
value, not the error. -/
theorem c2_counterexample :
    ImageCacheService.cacheImage "u" "0.8" (Except.error "boom") 1 0
        ImageCacheService.initImageCache
      = some (Except.ok "u", ImageCacheService.initImageCache) ∧
    (Except.ok "u" : Except String String) ≠ Except.error "boom" := by
  constructor
  · unfold ImageCacheService.cacheImage
    simp [CacheService.get, JsMap.mapGet, ImageCacheService.initImageCache,
      CacheService.initState]
  · intro h
    exact Except.noConfusion h

/-- C2 (amended): a compute failure never poisons a cache.  If all
translation providers fail and the derived key is fresh, `translate`
leaves both internal maps unchanged and throws
`All translation providers failed`; if image compression fails on a
cache miss, `cacheImage` stores nothing and leaves the cache unchanged —
but it catches the error and returns the original URL as a fallback
instead of propagating it. -/
theorem c2_compute_failure_not_cached
    (s : TranslationService.TransState) (text fromLang toLang : String)
    (now : Int) (providers : List (String × Except String String))
    (si : CacheService.CacheState String) (url quality : String)
    (err : String) (est : ℚ) (nowi : Int)
    (hfail : ∀ p ∈ providers, ∃ e, p.2 = Except.error e)
    (hk1 : JsMap.mapGet (fromLang ++ "-" ++ toLang ++ "-" ++ text) s.cache = none)
    (hk2 : JsMap.mapGet (fromLang ++ "-" ++ toLang ++ "-" ++ text) s.cacheExpiry = none)
    (hik : JsMap.mapGet (url ++ "-" ++ quality) si.cache = none) :
    TranslationService.translate text fromLang toLang providers now s
        = (Except.error "All translation providers failed", s) ∧
    ImageCacheService.cacheImage url quality (Except.error err) est nowi si
        = some (Except.ok url, si) := by
  constructor
  · unfold TranslationService.translate
    dsimp only
    have hin : TranslationService.isInCache
        (fromLang ++ "-" ++ toLang ++ "-" ++ text) now s = (false, s) := by
      unfold TranslationService.isInCache
      rw [hk2]
      dsimp only
      rw [if_pos rfl]
      rw [JsMap.mapErase_of_none hk1, JsMap.mapErase_of_none hk2]
    rw [hin, TranslationService.tryProviders_none hfail]
    rfl
  · unfold ImageCacheService.cacheImage
    dsimp only
    have hget : CacheService.get (url ++ "-" ++ quality) nowi si = (none, si) := by
      unfold CacheService.get
      rw [hik]
    rw [hget]

/-- Witness for C2's amended non-poisoning: one failing provider on a
fresh translation cache, and a failing compression on a fresh image
cache. -/
theorem c2_compute_failure_not_cached_witness :
    TranslationService.translate "hi" "ja" "en"
        [("Google Translate", Except.error "http 500")] 0
        (⟨[], []⟩ : TranslationService.TransState)
      = (Except.error "All translation providers failed",
        (⟨[], []⟩ : TranslationService.TransState)) ∧
    ImageCacheService.cacheImage "u" "0.8" (Except.error "boom") 1 0
        ImageCacheService.initImageCache
      = some (Except.ok "u", ImageCacheService.initImageCache) :=
  c2_compute_failure_not_cached (⟨[], []⟩ : TranslationService.TransState)
    "hi" "ja" "en" 0 [("Google Translate", Except.error "http 500")]
    ImageCacheService.initImageCache "u" "0.8" "boom" 1 0
    (by
      intro p hp
      simp only [List.mem_singleton] at hp
      exact ⟨"http 500", by rw [hp]⟩)
    (by rfl) (by rfl) (by rfl)
